import Mathlib

/-!
Verification development for the `feng` environment-variable library
(`envs.go`).  The core of the repository is a `.env` parser built around a
single Go regular expression

  lineRegx = `\A\s*(?:export\s+)?([\w\.]+)(?:\s*=\s*|:\s+?)` ++
             `('(?:\'|[^'])*'|"(?:\"|[^"])*"|[^#\n]+)?\s*(?:\s*\#.*)?\z`

together with a line-oriented file loader (`ReadEnvFile`), a multi-file
orchestration (`Load`), map helpers (`mergeMaps`, `removeQuotes`,
`SetenvMap`, `GetenvMap`) and a `bufio.Scanner` based scan loop.

The embedding below models strings as `List Char`.  Notes on fidelity:

* Go's `regexp` package uses leftmost-first (backtracking-preference)
  submatch semantics.  For this particular anchored pattern the search is
  deterministic except for three points: the optional `export` prefix
  (greedy: taken when possible, retried without when the rest fails), the
  choice of value alternative (single-quoted, double-quoted, unquoted, in
  that order), and the greedy star inside the quoted alternatives.  In
  RE2 the escape `\'` denotes a literal `'` (escaping punctuation), so
  `(?:\'|[^'])*` matches an arbitrary run of characters; the greedy star
  therefore closes the quoted alternative at the *last* position of the
  quote character whose remainder matches the trailing
  `\s*(?:\s*\#.*)?\z`.  `quotedSplit` below implements exactly that.
* Once the key and a separator have matched, the remainder of the pattern
  always matches a newline-free suffix (the value group is optional and
  the unquoted alternative accepts any non-`#` run), so the recognizer
  below never fails after the separator; this mirrors the regex.
* Scanner lines never contain `'\n'` (`bufio.ScanLines` splits on it), so
  the model only needs to be faithful on newline-free lines.
* `bufio.Scanner` has a maximum token size of 64 KiB
  (`bufio.MaxScanTokenSize = 65536`): a line whose newline is not found
  within the first 65536 buffered bytes makes `Scan` return `false` with
  `ErrTooLong`.  `ReadEnvFile` never consults `scanner.Err()`, so the
  model's scan loop simply stops at such a line (`scanFold`).
* The Go source never calls `Close` on the file handle opened by
  `ReadEnvFile`; `readEnvFileEvents` records the handle operations the
  function actually performs.
-/

namespace Feng

/-- Character class of Go's regexp `\w` plus the literal dot, i.e. the key
class `[\w\.]` of `lineRegx` (Go's `\w` is the ASCII `[0-9A-Za-z_]`). -/
def isWordChar (c : Char) : Bool :=
  (97 ≤ c.toNat && c.toNat ≤ 122) || (65 ≤ c.toNat && c.toNat ≤ 90) ||
    (48 ≤ c.toNat && c.toNat ≤ 57) || c.toNat == 95 || c.toNat == 46

/-- Character class of Go's regexp `\s`: `[\t\n\f\r ]`. -/
def isGoSpace (c : Char) : Bool :=
  c.toNat == 9 || c.toNat == 10 || c.toNat == 12 || c.toNat == 13 || c.toNat == 32

/-- The cut set of Go's `strings.TrimSpace`, i.e. `unicode.IsSpace`:
`'\t'`, `'\n'`, `'\v'`, `'\f'`, `'\r'`, `' '`, `U+0085`, `U+00A0` and the
higher White_Space code points. -/
def isUniSpace (c : Char) : Bool :=
  (9 ≤ c.toNat && c.toNat ≤ 13) || c.toNat == 32 || c.toNat == 133 ||
    c.toNat == 160 || c.toNat == 0x1680 ||
    (0x2000 ≤ c.toNat && c.toNat ≤ 0x200A) || c.toNat == 0x2028 ||
    c.toNat == 0x2029 || c.toNat == 0x202F || c.toNat == 0x205F ||
    c.toNat == 0x3000

/-- Left half of `strings.TrimSpace`. -/
def trimLeft (l : List Char) : List Char :=
  l.dropWhile fun c => isUniSpace c

/-- Right half of `strings.TrimSpace`. -/
def trimRight (l : List Char) : List Char :=
  (l.reverse.dropWhile fun c => isUniSpace c).reverse

/-- Model of Go's `strings.TrimSpace`. -/
def trimSpace (l : List Char) : List Char :=
  trimRight (trimLeft l)

/-- The seven-character prefix `"export "` stripped by
`strings.TrimPrefix(l, "export ")` in `ReadEnvFile`. -/
def exportSp : List Char := ['e', 'x', 'p', 'o', 'r', 't', ' ']

/-- Model of `strings.TrimPrefix(l, "export ")`. -/
def trimPrefixExport (l : List Char) : List Char :=
  if exportSp.isPrefixOf l then l.drop 7 else l

/-- Model of the Go `removeQuotes` helper: strings of length at least 2
whose first and last characters are a matching pair of quotes lose that
pair; every other string is returned unchanged. -/
def removeQuotes (s : List Char) : List Char :=
  if s.length < 2 then s
  else
    match s.head?, s.getLast? with
    | some f, some l =>
      if (f == '"' && l == '"') || (f == '\'' && l == '\'') then
        (s.drop 1).dropLast
      else s
    | _, _ => s

/-- Does a suffix match the trailing `\s*(?:\s*\#.*)?\z` of `lineRegx`?
(On newline-free suffixes this is: only whitespace remains, or the first
non-whitespace character is `'#'`.) -/
def tailOK (s : List Char) : Bool :=
  match s.dropWhile fun c => isGoSpace c with
  | [] => true
  | c :: _ => c == '#'

/-- Greedy match of `(?:\q|[^q])*q` (the body of the quoted value
alternatives of `lineRegx`, where in RE2 `\q` is just a literal quote):
given the text after the opening quote, split it at the *last* occurrence
of `q` whose remainder matches the trailing part of the pattern.  Returns
`some (inner, rest)` with `l = inner ++ [q] ++ rest`. -/
def quotedSplit (q : Char) : List Char → Option (List Char × List Char)
  | [] => none
  | c :: cs =>
    match quotedSplit q cs with
    | some (inner, rest) => some (c :: inner, rest)
    | none => if c == q && tailOK cs then some ([], cs) else none

/-- The value group of `lineRegx`
(`'(?:\'|[^'])*'|"(?:\"|[^"])*"|[^#\n]+`, optional): given the text after
the separator, return the raw captured text of group 2 (empty when the
group does not participate).  Alternatives are tried in the regex's
order; when a quoted alternative cannot close, the unquoted `[^#\n]+`
run is used, exactly as the backtracking order prescribes. -/
def parseValue (r : List Char) : List Char :=
  match r with
  | [] => []
  | c :: cs =>
    if c == '\'' || c == '"' then
      match quotedSplit c cs with
      | some (inner, _) => c :: (inner ++ [c])
      | none => r.takeWhile fun d => d != '#' && d != '\n'
    else r.takeWhile fun d => d != '#' && d != '\n'

/-- The separator `(?:\s*=\s*|:\s+?)` of `lineRegx`.  The first
alternative is greedy (`\s*` is maximal on both sides of `=`); the second
requires a colon followed by at least one whitespace character, and its
lazy `\s+?` consumes exactly one (the continuation of the pattern always
matches on newline-free input).  Returns the residual text in which the
value group is matched. -/
def parseSep (t : List Char) : Option (List Char) :=
  match t.dropWhile fun c => isGoSpace c with
  | '=' :: rest => some (rest.dropWhile fun c => isGoSpace c)
  | _ =>
    match t with
    | ':' :: c :: rest => if isGoSpace c then some rest else none
    | _ => none

/-- Key-and-separator phase of `lineRegx`: the key `([\w\.]+)` is a
maximal nonempty run of word characters (maximal munch is exact because
no word character can begin the separator), then the separator, then the
value group.  Returns the captures of groups 1 and 2. -/
def keySepValue (s : List Char) : Option (List Char × List Char) :=
  match s.takeWhile fun c => isWordChar c with
  | [] => none
  | _ :: _ =>
    match parseSep (s.dropWhile fun c => isWordChar c) with
    | none => none
    | some r => some (s.takeWhile fun c => isWordChar c, parseValue r)

/-- The optional `(?:export\s+)?` of `lineRegx`: the literal `export`
followed by at least one whitespace character (then `\s+` is greedy).
Returns the text after the consumed prefix when it matches. -/
def tryExport : List Char → Option (List Char)
  | 'e' :: 'x' :: 'p' :: 'o' :: 'r' :: 't' :: c :: rest =>
    if isGoSpace c then some ((c :: rest).dropWhile fun d => isGoSpace d)
    else none
  | _ => none

/-- Model of `lineRegx.FindStringSubmatch`, returning the captures of
groups 1 (key) and 2 (raw value) on a match.  Leading `\A\s*` first; the
greedy optional `export` is taken when possible and retried without when
the rest of the pattern then fails, per leftmost-first semantics. -/
def lineRegxMatch (l : List Char) : Option (List Char × List Char) :=
  let s := l.dropWhile fun c => isGoSpace c
  match tryExport s with
  | some s2 =>
    match keySepValue s2 with
    | some kv => some kv
    | none => keySepValue s
  | none => keySepValue s

/-- The environment mapping built by the loader (a Go
`map[string]string`, modelled as an association list without duplicate
keys). -/
abbrev EnvMap := List (List Char × List Char)

/-- A Go map insertion `m[k] = v`: overwrite the entry for `k` when
present, append otherwise. -/
def mapInsert (m : EnvMap) (k v : List Char) : EnvMap :=
  if m.any fun p => p.1 == k then
    m.map fun p => if p.1 == k then (k, v) else p
  else m ++ [(k, v)]

/-- A Go map lookup `m[k]`. -/
def mapLookup (m : EnvMap) (k : List Char) : Option (List Char) :=
  match m with
  | [] => none
  | (k', v) :: t => if k' == k then some v else mapLookup t k

/-- The per-line body of `ReadEnvFile`'s scan loop: trim, skip empty and
comment lines, strip a literal `"export "` prefix, run the recognizer,
and on a match insert the unquoted trimmed key and value. -/
def processLine (m : EnvMap) (line : List Char) : EnvMap :=
  match trimSpace line with
  | [] => m
  | c :: l' =>
    if c == '#' then m
    else
      match lineRegxMatch (trimPrefixExport (c :: l')) with
      | none => m
      | some (k, v) =>
        mapInsert m (removeQuotes (trimSpace k)) (removeQuotes (trimSpace v))

/-- Model of `bufio.ScanLines` line splitting: lines are the maximal
newline-free runs; a final line without a trailing newline is still
produced, and a trailing newline does not produce an extra empty line. -/
def goLines : List Char → List (List Char)
  | [] => []
  | c :: cs =>
    if c == '\n' then [] :: goLines cs
    else
      match goLines cs with
      | [] => [[c]]
      | h :: t => (c :: h) :: t

/-- `bufio.ScanLines` drops one trailing carriage return from each line. -/
def dropCR (l : List Char) : List Char :=
  if l.getLast? = some '\r' then l.dropLast else l

/-- The scan loop of `ReadEnvFile`.  A raw line longer than 65535
characters means the newline is not found within `bufio.Scanner`'s
64 KiB buffer: `Scan` returns `false` with `ErrTooLong`, the loop ends,
and — since `scanner.Err()` is never consulted — the map accumulated so
far is returned with no error. -/
def scanFold : List (List Char) → EnvMap → EnvMap
  | [], m => m
  | l :: ls, m =>
    if l.length > 65535 then m else scanFold ls (processLine m (dropCR l))

/-- `ReadEnvFile`'s processing of a whole file content. -/
def readEnvFileContent (content : List Char) : EnvMap :=
  scanFold (goLines content) []

/-- A file system: file name to content, `none` when the file cannot be
opened. -/
def FS := String → Option (List Char)

/-- Model of `ReadEnvFile`: open the file (propagating the open error),
scan it line by line, and return the accumulated mapping. -/
def ReadEnvFile (fs : FS) (name : String) : Except String EnvMap :=
  match fs name with
  | none => Except.error ("open " ++ name)
  | some content => Except.ok (readEnvFileContent content)

/-- Handle operations performed on the underlying file. -/
inductive FileEvent where
  | acquire (name : String)
  | release (name : String)
  deriving DecidableEq

/-- The file-handle operations `ReadEnvFile` performs: on a successful
open the handle is acquired, and the source contains no `Close` call on
any path, so no release event is ever emitted. -/
def readEnvFileEvents (fs : FS) (name : String) : List FileEvent :=
  match fs name with
  | none => []
  | some _ => [FileEvent.acquire name]

/-- Every acquired handle is released. -/
def handleBalanced (evs : List FileEvent) : Bool :=
  (evs.countP fun e => match e with | FileEvent.acquire _ => true | _ => false) ==
    (evs.countP fun e => match e with | FileEvent.release _ => true | _ => false)

/-- Model of `mergeMaps(a, b)`: a fresh map receiving every entry of `a`
then every entry of `b` (so `b` wins on conflicts). -/
def mergeMaps (a b : EnvMap) : EnvMap :=
  (a ++ b).foldl (fun r p => mapInsert r p.1 p.2) []

/-- Model of `SetenvMap`: one `os.Setenv` per entry.  Returns the updated
environment table together with the sequence of set operations issued. -/
def SetenvMap (env : EnvMap) (m : EnvMap) :
    EnvMap × List (List Char × List Char) :=
  (m.foldl (fun e p => mapInsert e p.1 p.2) env, m)

/-- The read-and-merge loop of `Load`. -/
def loadLoop (fs : FS) : List String → EnvMap → Except String EnvMap
  | [], acc => Except.ok acc
  | f :: rest, acc =>
    match ReadEnvFile fs f with
    | Except.error e => Except.error ("failed to read env file: " ++ e)
    | Except.ok m => loadLoop fs rest (mergeMaps acc m)

/-- Model of `Load`: read and merge every listed file (or the default
`".env"` when the list is empty), then bulk-apply the merged map to the
environment table.  Returns the call's result, the environment table
after the call, and the sequence of set operations issued. -/
def Load (fs : FS) (files : List String) (env : EnvMap) :
    Except String EnvMap × EnvMap × List (List Char × List Char) :=
  let merged : Except String EnvMap :=
    match loadLoop fs files [] with
    | Except.error e => Except.error e
    | Except.ok m =>
      if files.isEmpty then
        match ReadEnvFile fs ".env" with
        | Except.error e => Except.error ("failed to read env file: " ++ e)
        | Except.ok m2 => Except.ok (mergeMaps m m2)
      else Except.ok m
  match merged with
  | Except.error e => (Except.error e, env, [])
  | Except.ok m =>
    match SetenvMap env m with
    | (env2, evs) => (Except.ok env2, env2, evs)

/-- `strings.Split` on a single-character separator. -/
def splitOnChar (sep : Char) : List Char → List (List Char)
  | [] => [[]]
  | c :: cs =>
    match splitOnChar sep cs with
    | [] => [[]]
    | h :: t => if c == sep then [] :: h :: t else (c :: h) :: t

/-- The per-entry body of `GetenvMap`: `envLine := strings.Split(v, "=")`,
`k := envLine[0]`, `v := envLine[1]`.  (Go would raise an index-range
fault on an entry with no `=`; entries of the environment table always
contain one.) -/
def parseEnvEntry (entry : List Char) : List Char × List Char :=
  match splitOnChar '=' entry with
  | [] => ([], [])
  | k :: rest => (k, rest.headD [])

/-- Model of `GetenvMap`: build the map of all environment entries whose
key starts with `pre` (all of them when `pre` is empty). -/
def GetenvMap (entries : List (List Char)) (pre : List Char) : EnvMap :=
  entries.foldl
    (fun m e =>
      match parseEnvEntry e with
      | (k, v) => if pre.isPrefixOf k || pre == [] then mapInsert m k v else m)
    []

end Feng

namespace Feng

/-! ### Character-class facts -/

theorem word_not_goSpace {c : Char} (h : isWordChar c = true) :
    isGoSpace c = false := by
  simp only [isWordChar, Bool.or_eq_true, Bool.and_eq_true, decide_eq_true_eq,
    beq_iff_eq] at h
  simp only [isGoSpace, Bool.or_eq_false_iff, beq_eq_false_iff_ne, ne_eq]
  omega

theorem word_not_uniSpace {c : Char} (h : isWordChar c = true) :
    isUniSpace c = false := by
  simp only [isWordChar, Bool.or_eq_true, Bool.and_eq_true, decide_eq_true_eq,
    beq_iff_eq] at h
  simp only [isUniSpace, Bool.or_eq_false_iff, beq_eq_false_iff_ne, ne_eq,
    Bool.and_eq_false_iff, decide_eq_false_iff_not, not_le]
  omega

theorem goSpace_uniSpace {c : Char} (h : isGoSpace c = true) :
    isUniSpace c = true := by
  simp only [isGoSpace, Bool.or_eq_true, beq_iff_eq] at h
  simp only [isUniSpace, Bool.or_eq_true, Bool.and_eq_true, decide_eq_true_eq,
    beq_iff_eq]
  omega

theorem ne_of_word {c d : Char} (h : isWordChar c = true)
    (hd : isWordChar d = false) : c ≠ d := by
  intro e
  rw [e, hd] at h
  cases h

end Feng

namespace Feng

/-! ### List scanning toolkit -/

theorem dropWhile_cons_false {p : Char → Bool} {c : Char} {l : List Char}
    (h : p c = false) : (c :: l).dropWhile p = c :: l := by
  simp [List.dropWhile_cons, h]

theorem dropWhile_eq_self_of_head {p : Char → Bool} {l : List Char}
    (h : ∀ c, l.head? = some c → p c = false) : l.dropWhile p = l := by
  cases l with
  | nil => rfl
  | cons c t => exact dropWhile_cons_false (h c rfl)

theorem dropWhile_all_true {p : Char → Bool} {l : List Char}
    (h : ∀ c ∈ l, p c = true) : l.dropWhile p = [] := by
  induction l with
  | nil => rfl
  | cons c t ih =>
    rw [List.dropWhile_cons, if_pos]
    · exact ih fun d hd => h d (List.mem_cons_of_mem _ hd)
    · rw [h c (List.mem_cons_self _ _)]

theorem takeWhile_all_append {p : Char → Bool} {k : List Char} {x : Char}
    {r : List Char} (hk : ∀ c ∈ k, p c = true) (hx : p x = false) :
    (k ++ x :: r).takeWhile p = k := by
  rw [List.takeWhile_append_of_pos hk, List.takeWhile_cons, hx]
  simp

theorem dropWhile_all_append {p : Char → Bool} {k : List Char} {x : Char}
    {r : List Char} (hk : ∀ c ∈ k, p c = true) (hx : p x = false) :
    (k ++ x :: r).dropWhile p = x :: r := by
  rw [List.dropWhile_append_of_pos hk, List.dropWhile_cons, hx]
  simp

theorem dropWhile_append_stop {p : Char → Bool} {a b : List Char} {c : Char}
    (hc : p c = false) :
    (a ++ c :: b).dropWhile p = a.dropWhile p ++ c :: b := by
  induction a with
  | nil => simp [dropWhile_cons_false hc]
  | cons x t ih =>
    rw [List.cons_append, List.dropWhile_cons, List.dropWhile_cons]
    cases hx : p x with
    | true => simpa using ih
    | false => simp

theorem takeWhile_append_stop {p : Char → Bool} {a b : List Char} {c : Char}
    (ha : ∀ d ∈ a, p d = true) (hc : p c = false) :
    (a ++ c :: b).takeWhile p = a :=
  takeWhile_all_append ha hc

theorem dropWhile_dropWhile {p q : Char → Bool} {l : List Char}
    (h : ∀ c, q c = true → p c = true) :
    (l.dropWhile q).dropWhile p = l.dropWhile p := by
  induction l with
  | nil => rfl
  | cons c t ih =>
    rw [List.dropWhile_cons, List.dropWhile_cons]
    cases hq : q c with
    | true => simp [hq, h c hq, ih]
    | false => simp [hq, List.dropWhile_cons]

/-! ### Trim lemmas -/

theorem trimLeft_eq_self {l : List Char}
    (h : ∀ c, l.head? = some c → isUniSpace c = false) : trimLeft l = l :=
  dropWhile_eq_self_of_head h

theorem trimRight_eq_self {l : List Char}
    (h : ∀ c, l.getLast? = some c → isUniSpace c = false) : trimRight l = l := by
  unfold trimRight
  rw [dropWhile_eq_self_of_head, List.reverse_reverse]
  intro c hc
  exact h c (by rwa [List.head?_reverse] at hc)

theorem trimSpace_eq_self {l : List Char}
    (h1 : ∀ c, l.head? = some c → isUniSpace c = false)
    (h2 : ∀ c, l.getLast? = some c → isUniSpace c = false) :
    trimSpace l = l := by
  unfold trimSpace
  rw [trimLeft_eq_self h1, trimRight_eq_self h2]

theorem trimRight_append {x y : List Char} {c : Char}
    (hc : isUniSpace c = false) :
    trimRight (x ++ c :: y) = x ++ c :: trimRight y := by
  unfold trimRight
  have : (x ++ c :: y).reverse = y.reverse ++ c :: x.reverse := by
    simp
  rw [this, dropWhile_append_stop hc]
  simp

theorem trimLeft_of_goDrop {v : List Char} :
    trimLeft (v.dropWhile fun c => isGoSpace c) = trimLeft v := by
  unfold trimLeft
  exact dropWhile_dropWhile fun c h => goSpace_uniSpace h

theorem trimSpace_of_goDrop {v : List Char} :
    trimSpace (v.dropWhile fun c => isGoSpace c) = trimSpace v := by
  unfold trimSpace
  rw [trimLeft_of_goDrop]

end Feng

namespace Feng

/-! ### Recognizer building-block lemmas -/

theorem quotedSplit_concat (q : Char) (l : List Char) :
    quotedSplit q (l ++ [q]) = some (l, []) := by
  induction l with
  | nil =>
    show quotedSplit q [q] = some ([], [])
    simp [quotedSplit, tailOK]
  | cons c t ih =>
    rw [List.cons_append]
    show (match quotedSplit q (t ++ [q]) with
      | some (inner, rest) => some (c :: inner, rest)
      | none => if c == q && tailOK (t ++ [q]) then some ([], t ++ [q])
                else none) = some (c :: t, [])
    rw [ih]

theorem removeQuotes_quoted {q : Char} (hq : q = '"' ∨ q = '\'')
    (inner : List Char) : removeQuotes (q :: (inner ++ [q])) = inner := by
  have hl : (q :: (inner ++ [q])).getLast? = some q := by
    rw [show q :: (inner ++ [q]) = (q :: inner) ++ [q] from rfl]
    exact List.getLast?_concat _
  have hcond : ((q == '"' && q == '"') || (q == '\'' && q == '\'')) = true := by
    rcases hq with h | h <;> simp [h]
  unfold removeQuotes
  rw [if_neg (by simp)]
  rw [show (q :: (inner ++ [q])).head? = some q from rfl, hl]
  show (if ((q == '"' && q == '"') || (q == '\'' && q == '\'')) = true
    then ((q :: (inner ++ [q])).drop 1).dropLast
    else q :: (inner ++ [q])) = inner
  rw [hcond, if_pos rfl]
  simp

theorem removeQuotes_eq_self_of_head {l : List Char}
    (h : ∀ c, l.head? = some c → (c ≠ '"' ∧ c ≠ '\'')) :
    removeQuotes l = l := by
  unfold removeQuotes
  by_cases hlen : l.length < 2
  · rw [if_pos hlen]
  · rw [if_neg hlen]
    cases l with
    | nil => rfl
    | cons c t =>
      obtain ⟨h1, h2⟩ := h c rfl
      cases hg : (c :: t).getLast? with
      | none => simp at hg
      | some d =>
        show (if ((c == '"' && d == '"') || (c == '\'' && d == '\'')) = true
          then ((c :: t).drop 1).dropLast else c :: t) = c :: t
        rw [if_neg]
        simp only [Bool.or_eq_true, Bool.and_eq_true, beq_iff_eq]
        rintro (⟨rfl, -⟩ | ⟨rfl, -⟩)
        · exact h1 rfl
        · exact h2 rfl

theorem removeQuotes_nil : removeQuotes [] = [] := rfl

theorem removeQuotes_of_all_word {l : List Char}
    (h : ∀ c ∈ l, isWordChar c = true) : removeQuotes l = l := by
  refine removeQuotes_eq_self_of_head fun c hc => ?_
  have hm : c ∈ l := List.mem_of_mem_head? (by rw [hc]; exact rfl)
  have hw := h c hm
  exact ⟨ne_of_word hw (by decide), ne_of_word hw (by decide)⟩

theorem trimSpace_of_all_word {l : List Char}
    (h : ∀ c ∈ l, isWordChar c = true) : trimSpace l = l := by
  refine trimSpace_eq_self (fun c hc => ?_) (fun c hc => ?_)
  · exact word_not_uniSpace (h c (List.mem_of_mem_head? (by rw [hc]; exact rfl)))
  · exact word_not_uniSpace (h c (List.mem_of_getLast?_eq_some hc))

/-! ### goLines lemmas -/

theorem goLines_append {a b : List Char} (ha : '\n' ∉ a) :
    goLines (a ++ '\n' :: b) = a :: goLines b := by
  induction a with
  | nil =>
    show goLines ('\n' :: b) = [] :: goLines b
    simp [goLines]
  | cons c t ih =>
    have hc : c ≠ '\n' := fun e => ha (e ▸ List.mem_cons_self _ _)
    have ht : '\n' ∉ t := fun m => ha (List.mem_cons_of_mem _ m)
    rw [List.cons_append]
    show (if c == '\n' then [] :: goLines (t ++ '\n' :: b)
      else match goLines (t ++ '\n' :: b) with
        | [] => [[c]]
        | h :: t' => (c :: h) :: t') = (c :: t) :: goLines b
    rw [if_neg (by simpa using hc), ih ht]

theorem goLines_single {l : List Char} (h0 : l ≠ []) (hn : '\n' ∉ l) :
    goLines l = [l] := by
  induction l with
  | nil => exact absurd rfl h0
  | cons c t ih =>
    have hc : c ≠ '\n' := fun e => hn (e ▸ List.mem_cons_self _ _)
    have ht : '\n' ∉ t := fun m => hn (List.mem_cons_of_mem _ m)
    show (if c == '\n' then [] :: goLines t
      else match goLines t with
        | [] => [[c]]
        | h :: t' => (c :: h) :: t') = [c :: t]
    rw [if_neg (by simpa using hc)]
    cases he : t.isEmpty with
    | true =>
      have : t = [] := by simpa [List.isEmpty_iff] using he
      subst this
      rfl
    | false =>
      have : t ≠ [] := by simpa [List.isEmpty_iff] using he
      rw [ih this ht]

/-! ### Map lemmas -/

theorem mapLookup_map_overwrite {k v : List Char} :
    ∀ m : EnvMap, m.any (fun p => p.1 == k) = true →
      mapLookup (m.map fun p => if p.1 == k then (k, v) else p) k = some v := by
  intro m
  induction m with
  | nil => intro h; cases h
  | cons a t ih =>
    intro h
    cases ha : (a.1 == k) with
    | true =>
      show mapLookup ((if a.1 == k then (k, v) else a) ::
        (t.map fun p => if p.1 == k then (k, v) else p)) k = some v
      rw [ha]
      show mapLookup ((k, v) :: _) k = some v
      simp [mapLookup]
    | false =>
      have h' : t.any (fun p => p.1 == k) = true := by
        simpa [List.any_cons, ha] using h
      show mapLookup ((if a.1 == k then (k, v) else a) ::
        (t.map fun p => if p.1 == k then (k, v) else p)) k = some v
      rw [ha]
      show mapLookup (a :: _) k = some v
      simp only [mapLookup, ha]
      exact ih h'

theorem mapLookup_append_last {k v : List Char} :
    ∀ m : EnvMap, m.any (fun p => p.1 == k) = false →
      mapLookup (m ++ [(k, v)]) k = some v := by
  intro m
  induction m with
  | nil => intro _; simp [mapLookup]
  | cons a t ih =>
    intro h
    have ha : (a.1 == k) = false := by
      by_contra hc
      simp only [Bool.not_eq_false] at hc
      simp [List.any_cons, hc] at h
    have h' : t.any (fun p => p.1 == k) = false := by
      simpa [List.any_cons, ha] using h
    show mapLookup (a :: (t ++ [(k, v)])) k = some v
    simp only [mapLookup, ha]
    exact ih h'

theorem mapLookup_mapInsert (m : EnvMap) (k v : List Char) :
    mapLookup (mapInsert m k v) k = some v := by
  unfold mapInsert
  cases h : m.any fun p => p.1 == k with
  | true =>
    rw [if_pos rfl]
    exact mapLookup_map_overwrite m h
  | false =>
    rw [if_neg (by simp)]
    exact mapLookup_append_last m h

end Feng

namespace Feng

/-! ### Key-line lemmas: for a line `k ++ '=' :: rest` with `k` a nonempty
run of word characters, the recognizer takes the expected path. -/

theorem keyline_take6 {k rest : List Char}
    (hpre : (k ++ '=' :: rest).take 6 = ['e', 'x', 'p', 'o', 'r', 't']) :
    6 ≤ k.length := by
  by_contra hlen
  push_neg at hlen
  have h1 : (k ++ '=' :: rest).get? k.length = some '=' := by
    rw [List.get?_append_right (le_refl _)]
    simp
  have h2 : ((k ++ '=' :: rest).take 6).get? k.length
      = (k ++ '=' :: rest).get? k.length := List.get?_take hlen
  rw [hpre, h1] at h2
  have h3 : '=' ∈ (['e', 'x', 'p', 'o', 'r', 't'] : List Char) :=
    List.get?_mem h2
  revert h3
  decide

theorem keyline_get6 {k rest : List Char} {c : Char} (h6 : 6 ≤ k.length)
    (hw : ∀ d ∈ k, isWordChar d = true)
    (hg : (k ++ '=' :: rest).get? 6 = some c) :
    c = '=' ∨ isWordChar c = true := by
  rcases Nat.lt_or_ge 6 k.length with hlt | hge
  · right
    rw [List.get?_append hlt] at hg
    exact hw c (List.get?_mem hg)
  · left
    have he : k.length = 6 := Nat.le_antisymm hge h6
    rw [List.get?_append_right (by omega)] at hg
    rw [he] at hg
    simpa using hg.symm

theorem tryExport_keyline {k rest : List Char}
    (hw : ∀ d ∈ k, isWordChar d = true) :
    tryExport (k ++ '=' :: rest) = none := by
  rw [tryExport.eq_def]
  split
  next c r' heq =>
    rw [if_neg]
    intro hsp
    have hpre : (k ++ '=' :: rest).take 6 = ['e', 'x', 'p', 'o', 'r', 't'] := by
      rw [heq]
      rfl
    have hg : (k ++ '=' :: rest).get? 6 = some c := by
      rw [heq]
      rfl
    rcases keyline_get6 (keyline_take6 hpre) hw hg with h | h
    · subst h
      exact absurd hsp (by decide)
    · rw [word_not_goSpace h] at hsp
      cases hsp
  next => rfl

theorem trimPrefixExport_keyline {k rest : List Char}
    (hw : ∀ d ∈ k, isWordChar d = true) :
    trimPrefixExport (k ++ '=' :: rest) = k ++ '=' :: rest := by
  unfold trimPrefixExport
  rw [if_neg]
  intro hpf
  rw [List.isPrefixOf_iff_prefix] at hpf
  obtain ⟨t, ht⟩ := hpf
  have hpre : (k ++ '=' :: rest).take 6 = ['e', 'x', 'p', 'o', 'r', 't'] := by
    rw [← ht]
    rfl
  have hg : (k ++ '=' :: rest).get? 6 = some ' ' := by
    rw [← ht]
    rfl
  rcases keyline_get6 (keyline_take6 hpre) hw hg with h | h
  · exact absurd h (by decide)
  · exact absurd h (by decide)

theorem keySepValue_keyline {k rest : List Char} (hk : k ≠ [])
    (hw : ∀ d ∈ k, isWordChar d = true) :
    keySepValue (k ++ '=' :: rest)
      = some (k, parseValue (rest.dropWhile fun c => isGoSpace c)) := by
  have htake : (k ++ '=' :: rest).takeWhile (fun c => isWordChar c) = k :=
    takeWhile_all_append hw (by decide)
  have hdrop : (k ++ '=' :: rest).dropWhile (fun c => isWordChar c) = '=' :: rest :=
    dropWhile_all_append hw (by decide)
  have hsep : parseSep ('=' :: rest)
      = some (rest.dropWhile fun c => isGoSpace c) := by
    unfold parseSep
    rw [dropWhile_cons_false (by decide)]
    rfl
  unfold keySepValue
  rw [htake, hdrop, hsep]
  obtain ⟨c, k', rfl⟩ : ∃ c k', k = c :: k' := by
    cases k with
    | nil => exact absurd rfl hk
    | cons c k' => exact ⟨c, k', rfl⟩
  rfl

theorem head_not_goSpace_keyline {k rest : List Char} (hk : k ≠ [])
    (hw : ∀ d ∈ k, isWordChar d = true) :
    (k ++ '=' :: rest).dropWhile (fun c => isGoSpace c) = k ++ '=' :: rest := by
  refine dropWhile_eq_self_of_head fun c hc => ?_
  cases k with
  | nil => exact absurd rfl hk
  | cons a k' =>
    have ha : a = c := by
      have : some a = some c := hc
      exact Option.some.inj this
    subst ha
    exact word_not_goSpace (hw a (List.mem_cons_self _ _))

theorem lineRegxMatch_keyline {k rest : List Char} (hk : k ≠ [])
    (hw : ∀ d ∈ k, isWordChar d = true) :
    lineRegxMatch (k ++ '=' :: rest)
      = some (k, parseValue (rest.dropWhile fun c => isGoSpace c)) := by
  show (match tryExport ((k ++ '=' :: rest).dropWhile fun c => isGoSpace c) with
    | some s2 =>
      match keySepValue s2 with
      | some kv => some kv
      | none => keySepValue ((k ++ '=' :: rest).dropWhile fun c => isGoSpace c)
    | none => keySepValue ((k ++ '=' :: rest).dropWhile fun c => isGoSpace c))
    = some (k, parseValue (rest.dropWhile fun c => isGoSpace c))
  rw [head_not_goSpace_keyline hk hw, tryExport_keyline hw]
  exact keySepValue_keyline hk hw

end Feng

namespace Feng

theorem takeWhile_all_true {p : Char → Bool} {l : List Char}
    (h : ∀ c ∈ l, p c = true) : l.takeWhile p = l := by
  induction l with
  | nil => rfl
  | cons c t ih =>
    rw [List.takeWhile_cons, h c (List.mem_cons_self _ _)]
    simp [ih fun d hd => h d (List.mem_cons_of_mem _ hd)]

/-- The common spine of `processLine` on a line `k ++ '=' :: rest` whose
key `k` is a nonempty run of word characters and whose whitespace trim is
the identity. -/
theorem processLine_keyline {m : EnvMap} {k rest : List Char} (hk : k ≠ [])
    (hw : ∀ d ∈ k, isWordChar d = true)
    (htrim : trimSpace (k ++ '=' :: rest) = k ++ '=' :: rest) :
    processLine m (k ++ '=' :: rest)
      = mapInsert m k
          (removeQuotes
            (trimSpace (parseValue (rest.dropWhile fun c => isGoSpace c)))) := by
  obtain ⟨a, k', rfl⟩ : ∃ a k', k = a :: k' := by
    cases k with
    | nil => exact absurd rfl hk
    | cons a k' => exact ⟨a, k', rfl⟩
  have hline : (a :: k') ++ '=' :: rest = a :: (k' ++ '=' :: rest) := rfl
  unfold processLine
  rw [htrim, hline]
  show (if a == '#' then m
    else
      match lineRegxMatch (trimPrefixExport (a :: (k' ++ '=' :: rest))) with
      | none => m
      | some (kk, v) =>
        mapInsert m (removeQuotes (trimSpace kk)) (removeQuotes (trimSpace v)))
    = mapInsert m (a :: k')
        (removeQuotes
          (trimSpace (parseValue (rest.dropWhile fun c => isGoSpace c))))
  rw [if_neg (by
    simp only [beq_iff_eq]
    exact ne_of_word (hw a (List.mem_cons_self _ _)) (by decide))]
  rw [← hline, trimPrefixExport_keyline hw, lineRegxMatch_keyline hk hw]
  show mapInsert m (removeQuotes (trimSpace (a :: k')))
      (removeQuotes (trimSpace (parseValue (rest.dropWhile fun c => isGoSpace c))))
    = mapInsert m (a :: k')
        (removeQuotes (trimSpace (parseValue (rest.dropWhile fun c => isGoSpace c))))
  rw [trimSpace_of_all_word hw, removeQuotes_of_all_word hw]

/-- Value pipeline for a quoted value closing at end of line. -/
theorem parseValue_quoted {q : Char} (hq : q = '"' ∨ q = '\'')
    (inner : List Char) :
    parseValue (q :: (inner ++ [q])) = q :: (inner ++ [q])  := by
  show (if (q == '\'' || q == '"') = true then
      match quotedSplit q (inner ++ [q]) with
      | some (inner', _) => q :: (inner' ++ [q])
      | none => (q :: (inner ++ [q])).takeWhile fun d => d != '#' && d != '\n'
    else (q :: (inner ++ [q])).takeWhile fun d => d != '#' && d != '\n')
    = q :: (inner ++ [q])
  rw [if_pos (by rcases hq with rfl | rfl <;> simp), quotedSplit_concat]

/-- The trim of a quoted raw value is the identity. -/
theorem trimSpace_quoted {q : Char} (hq : q = '"' ∨ q = '\'')
    (inner : List Char) :
    trimSpace (q :: (inner ++ [q])) = q :: (inner ++ [q]) := by
  have hqn : isUniSpace q = false := by rcases hq with rfl | rfl <;> decide
  refine trimSpace_eq_self (fun c hc => ?_) (fun c hc => ?_)
  · have : q = c := Option.some.inj hc
    rwa [← this]
  · rw [show q :: (inner ++ [q]) = (q :: inner) ++ [q] from rfl,
      List.getLast?_concat] at hc
    have : q = c := Option.some.inj hc
    rwa [← this]

/-- `processLine` on `k='inner'` (or with double quotes) inserts `k ↦ inner`:
the quoted alternative closes at the final quote and `removeQuotes` strips
exactly the outer pair.  `inner` is arbitrary — it may contain spaces,
`#`, and (unescaped) quote characters. -/
theorem processLine_quoted {m : EnvMap} {k : List Char} {q : Char}
    {inner : List Char} (hq : q = '"' ∨ q = '\'') (hk : k ≠ [])
    (hw : ∀ d ∈ k, isWordChar d = true) :
    processLine m (k ++ '=' :: q :: (inner ++ [q])) = mapInsert m k inner := by
  have hqs : isGoSpace q = false := by rcases hq with rfl | rfl <;> decide
  have hqu : isUniSpace q = false := by rcases hq with rfl | rfl <;> decide
  have htrim : trimSpace (k ++ '=' :: q :: (inner ++ [q]))
      = k ++ '=' :: q :: (inner ++ [q]) := by
    refine trimSpace_eq_self (fun c hc => ?_) (fun c hc => ?_)
    · obtain ⟨a, k', rfl⟩ : ∃ a k', k = a :: k' := by
        cases k with
        | nil => exact absurd rfl hk
        | cons a k' => exact ⟨a, k', rfl⟩
      have : a = c := Option.some.inj hc
      subst this
      exact word_not_uniSpace (hw a (List.mem_cons_self _ _))
    · rw [show k ++ '=' :: q :: (inner ++ [q])
          = (k ++ '=' :: q :: inner) ++ [q] by simp,
        List.getLast?_concat] at hc
      have : q = c := Option.some.inj hc
      rwa [← this]
  rw [processLine_keyline hk hw htrim, dropWhile_cons_false hqs,
    parseValue_quoted hq, trimSpace_quoted hq, removeQuotes_quoted hq]

end Feng

namespace Feng

/-- `processLine` on `k=` (separator present, no value at all) records the
key with the empty value. -/
theorem processLine_keyEq {m : EnvMap} {k : List Char} (hk : k ≠ [])
    (hw : ∀ d ∈ k, isWordChar d = true) :
    processLine m (k ++ ['=']) = mapInsert m k [] := by
  have htrim : trimSpace (k ++ ['=']) = k ++ ['='] := by
    refine trimSpace_eq_self (fun c hc => ?_) (fun c hc => ?_)
    · obtain ⟨a, k', rfl⟩ : ∃ a k', k = a :: k' := by
        cases k with
        | nil => exact absurd rfl hk
        | cons a k' => exact ⟨a, k', rfl⟩
      have : a = c := Option.some.inj hc
      subst this
      exact word_not_uniSpace (hw a (List.mem_cons_self _ _))
    · rw [List.getLast?_concat] at hc
      have : '=' = c := Option.some.inj hc
      subst this
      decide
  rw [show k ++ ['='] = k ++ '=' :: [] from rfl] at htrim ⊢
  rw [processLine_keyline hk hw htrim]
  rfl

/-- `processLine` on `k=v` with a plain word-character value inserts
`k ↦ v` unchanged. -/
theorem processLine_wordVal {m : EnvMap} {k v : List Char} (hk : k ≠ [])
    (hw : ∀ d ∈ k, isWordChar d = true)
    (hv : ∀ c ∈ v, isWordChar c = true) :
    processLine m (k ++ '=' :: v) = mapInsert m k v := by
  have htrim : trimSpace (k ++ '=' :: v) = k ++ '=' :: v := by
    refine trimSpace_eq_self (fun c hc => ?_) (fun c hc => ?_)
    · obtain ⟨a, k', rfl⟩ : ∃ a k', k = a :: k' := by
        cases k with
        | nil => exact absurd rfl hk
        | cons a k' => exact ⟨a, k', rfl⟩
      have : a = c := Option.some.inj hc
      subst this
      exact word_not_uniSpace (hw a (List.mem_cons_self _ _))
    · have hc' : c ∈ k ++ '=' :: v := List.mem_of_getLast?_eq_some hc
      rcases List.mem_append.mp hc' with h | h
      · exact word_not_uniSpace (hw c h)
      · rcases List.mem_cons.mp h with rfl | h
        · decide
        · exact word_not_uniSpace (hv c h)
  have hdv : v.dropWhile (fun c => isGoSpace c) = v := by
    refine dropWhile_eq_self_of_head fun c hc => ?_
    exact word_not_goSpace (hv c (List.mem_of_mem_head? (by rw [hc]; exact rfl)))
  have hpv : parseValue v = v := by
    cases v with
    | nil => rfl
    | cons c cs =>
      have hcw := hv c (List.mem_cons_self _ _)
      show (if (c == '\'' || c == '"') = true then
          match quotedSplit c cs with
          | some (inner', _) => c :: (inner' ++ [c])
          | none => (c :: cs).takeWhile fun d => d != '#' && d != '\n'
        else (c :: cs).takeWhile fun d => d != '#' && d != '\n') = c :: cs
      rw [if_neg (by
        simp only [Bool.or_eq_true, beq_iff_eq]
        rintro (rfl | rfl) <;> revert hcw <;> decide)]
      refine takeWhile_all_true fun d hd => ?_
      have hdw := hv d hd
      simp only [Bool.and_eq_true, bne_iff_ne, ne_eq]
      exact ⟨ne_of_word hdw (by decide), ne_of_word hdw (by decide)⟩
  rw [processLine_keyline hk hw htrim, hdv, hpv, trimSpace_of_all_word hv,
    removeQuotes_of_all_word hv]

theorem processLine_eq_of_trim {m : EnvMap} {l l' : List Char}
    (h1 : trimSpace l = l') (h2 : trimSpace l' = l') :
    processLine m l = processLine m l' := by
  unfold processLine
  rw [h1, h2]

theorem trimRight_idem (l : List Char) : trimRight (trimRight l) = trimRight l := by
  unfold trimRight
  rw [List.reverse_reverse, dropWhile_dropWhile fun c h => h]

end Feng

namespace Feng

/-- `processLine` on `k=value#comment` with an unquoted value: the value is
the run between the separator and the first `#`, trimmed of surrounding
whitespace.  (`hv_nl` and `hc_nl` restrict the statement to scanner lines,
which never contain a newline; `hq1`/`hq2` say the value does not begin
with a quote character, i.e. the line uses the unquoted alternative.) -/
theorem processLine_unquoted {m : EnvMap} {k v cmt : List Char} (hk : k ≠ [])
    (hw : ∀ d ∈ k, isWordChar d = true)
    (hv_hash : '#' ∉ v) (hv_nl : '\n' ∉ v)
    (hq1 : ∀ c, (v.dropWhile fun c => isGoSpace c).head? = some c →
      (c ≠ '"' ∧ c ≠ '\''))
    (hq2 : ∀ c, (trimSpace v).head? = some c → (c ≠ '"' ∧ c ≠ '\''))
    (hc_nl : '\n' ∉ cmt) :
    processLine m (k ++ '=' :: (v ++ '#' :: cmt))
      = mapInsert m k (trimSpace v) := by
  obtain ⟨a, k', rfl⟩ : ∃ a k', k = a :: k' := by
    cases k with
    | nil => exact absurd rfl hk
    | cons a k' => exact ⟨a, k', rfl⟩
  have hhead : ∀ (rest : List Char) (c : Char),
      ((a :: k') ++ '=' :: rest).head? = some c → isUniSpace c = false := by
    intro rest c hc
    have : a = c := Option.some.inj hc
    subst this
    exact word_not_uniSpace (hw a (List.mem_cons_self _ _))
  have hassoc : ∀ y : List Char,
      (a :: k') ++ '=' :: (v ++ y) = ((a :: k') ++ '=' :: v) ++ y := by
    intro y
    simp
  have h1 : trimSpace ((a :: k') ++ '=' :: (v ++ '#' :: cmt))
      = (a :: k') ++ '=' :: (v ++ '#' :: trimRight cmt) := by
    unfold trimSpace
    rw [trimLeft_eq_self (hhead _), hassoc ('#' :: cmt),
      trimRight_append (by decide), ← hassoc ('#' :: trimRight cmt)]
  have h2 : trimSpace ((a :: k') ++ '=' :: (v ++ '#' :: trimRight cmt))
      = (a :: k') ++ '=' :: (v ++ '#' :: trimRight cmt) := by
    unfold trimSpace
    rw [trimLeft_eq_self (hhead _), hassoc ('#' :: trimRight cmt),
      trimRight_append (by decide), trimRight_idem]
  rw [processLine_eq_of_trim h1 h2, processLine_keyline hk hw h2]
  have hr0 : ((v ++ '#' :: trimRight cmt).dropWhile fun c => isGoSpace c)
      = (v.dropWhile fun c => isGoSpace c) ++ '#' :: trimRight cmt :=
    dropWhile_append_stop (by decide)
  have hpv : parseValue
      ((v.dropWhile fun c => isGoSpace c) ++ '#' :: trimRight cmt)
      = v.dropWhile fun c => isGoSpace c := by
    cases hdv : v.dropWhile fun c => isGoSpace c with
    | nil =>
      show parseValue ('#' :: trimRight cmt) = []
      show (if ('#' == '\'' || '#' == '"') = true then
          match quotedSplit '#' (trimRight cmt) with
          | some (inner', _) => '#' :: (inner' ++ ['#'])
          | none => ('#' :: trimRight cmt).takeWhile fun d => d != '#' && d != '\n'
        else ('#' :: trimRight cmt).takeWhile fun d => d != '#' && d != '\n') = []
      rw [if_neg (by decide), List.takeWhile_cons]
      simp
    | cons d dv' =>
      obtain ⟨hd1, hd2⟩ := hq1 d (by rw [hdv]; rfl)
      have hmem : ∀ e ∈ d :: dv', e ∈ v := by
        intro e he
        have hin : e ∈ v.dropWhile fun c => isGoSpace c := by
          rw [hdv]
          exact he
        exact List.dropWhile_subset (fun c => isGoSpace c) hin
      show (if (d == '\'' || d == '"') = true then
          match quotedSplit d (dv' ++ '#' :: trimRight cmt) with
          | some (inner', _) => d :: (inner' ++ [d])
          | none => ((d :: dv') ++ '#' :: trimRight cmt).takeWhile
              fun e => e != '#' && e != '\n'
        else ((d :: dv') ++ '#' :: trimRight cmt).takeWhile
            fun e => e != '#' && e != '\n') = d :: dv'
      rw [if_neg (by
        simp only [Bool.or_eq_true, beq_iff_eq]
        rintro (rfl | rfl)
        · exact hd2 rfl
        · exact hd1 rfl)]
      refine takeWhile_append_stop (fun e he => ?_) (by decide)
      have hev : e ∈ v := hmem e he
      simp only [Bool.and_eq_true, bne_iff_ne, ne_eq]
      exact ⟨fun h => hv_hash (h ▸ hev), fun h => hv_nl (h ▸ hev)⟩
  rw [hr0, hpv, trimSpace_of_goDrop,
    removeQuotes_eq_self_of_head fun c hc => hq2 c hc]

end Feng

namespace Feng

/-! ### Bare-key lines (no separator at all) do not match -/

theorem tryExport_bareKey {k : List Char}
    (hw : ∀ d ∈ k, isWordChar d = true) : tryExport k = none := by
  rw [tryExport.eq_def]
  split
  next c r' =>
    rw [if_neg]
    intro hsp
    have hc : isWordChar c = true := hw c (by simp)
    rw [word_not_goSpace hc] at hsp
    cases hsp
  next => rfl

theorem lineRegxMatch_bareKey {k : List Char} (hk : k ≠ [])
    (hw : ∀ d ∈ k, isWordChar d = true) : lineRegxMatch k = none := by
  have hdrop : k.dropWhile (fun c => isGoSpace c) = k := by
    refine dropWhile_eq_self_of_head fun c hc => ?_
    exact word_not_goSpace (hw c (List.mem_of_mem_head? (by rw [hc]; exact rfl)))
  have hksv : keySepValue k = none := by
    unfold keySepValue
    rw [takeWhile_all_true hw, dropWhile_all_true hw]
    obtain ⟨a, k', rfl⟩ : ∃ a k', k = a :: k' := by
      cases k with
      | nil => exact absurd rfl hk
      | cons a k' => exact ⟨a, k', rfl⟩
    rfl
  show (match tryExport (k.dropWhile fun c => isGoSpace c) with
    | some s2 =>
      match keySepValue s2 with
      | some kv => some kv
      | none => keySepValue (k.dropWhile fun c => isGoSpace c)
    | none => keySepValue (k.dropWhile fun c => isGoSpace c)) = none
  rw [hdrop, tryExport_bareKey hw, hksv]

theorem processLine_bareKey {m : EnvMap} {k : List Char} (hk : k ≠ [])
    (hw : ∀ d ∈ k, isWordChar d = true) : processLine m k = m := by
  obtain ⟨a, k', rfl⟩ : ∃ a k', k = a :: k' := by
    cases k with
    | nil => exact absurd rfl hk
    | cons a k' => exact ⟨a, k', rfl⟩
  have htrim : trimSpace (a :: k') = a :: k' := trimSpace_of_all_word hw
  have hpre : trimPrefixExport (a :: k') = a :: k' := by
    unfold trimPrefixExport
    rw [if_neg]
    intro hpf
    rw [List.isPrefixOf_iff_prefix] at hpf
    have hsp : ' ' ∈ a :: k' := hpf.subset (by decide)
    have := hw ' ' hsp
    revert this
    decide
  unfold processLine
  rw [htrim]
  show (if a == '#' then m
    else
      match lineRegxMatch (trimPrefixExport (a :: k')) with
      | none => m
      | some (kk, v) =>
        mapInsert m (removeQuotes (trimSpace kk)) (removeQuotes (trimSpace v))) = m
  rw [if_neg (by
    simp only [beq_iff_eq]
    exact ne_of_word (hw a (List.mem_cons_self _ _)) (by decide))]
  rw [hpre, lineRegxMatch_bareKey hk hw]

/-! ### Word-only lines toolkit -/

theorem mem_keyline {k v : List Char} {c : Char} (hc : c ∈ k ++ '=' :: v)
    (hw : ∀ d ∈ k, isWordChar d = true) (hv : ∀ d ∈ v, isWordChar d = true) :
    c = '=' ∨ isWordChar c = true := by
  rcases List.mem_append.mp hc with h | h
  · exact Or.inr (hw c h)
  · rcases List.mem_cons.mp h with rfl | h
    · exact Or.inl rfl
    · exact Or.inr (hv c h)

theorem nl_not_mem_keyline {k v : List Char}
    (hw : ∀ d ∈ k, isWordChar d = true) (hv : ∀ d ∈ v, isWordChar d = true) :
    '\n' ∉ k ++ '=' :: v := by
  intro hc
  rcases mem_keyline hc hw hv with h | h
  · cases h
  · revert h
    decide

theorem dropCR_keyline {k v : List Char}
    (hw : ∀ d ∈ k, isWordChar d = true) (hv : ∀ d ∈ v, isWordChar d = true) :
    dropCR (k ++ '=' :: v) = k ++ '=' :: v := by
  unfold dropCR
  rw [if_neg]
  intro h
  have hc := List.mem_of_getLast?_eq_some h
  rcases mem_keyline hc hw hv with h' | h'
  · cases h'
  · revert h'
    decide

end Feng

namespace Feng

/-! ### Load-loop lemmas -/

theorem loadLoop_error (fs : FS) (f0 : String) :
    ∀ (files : List String) (acc : EnvMap),
      files.find? (fun f => (fs f).isNone) = some f0 →
      loadLoop fs files acc
        = Except.error ("failed to read env file: " ++ ("open " ++ f0)) := by
  intro files
  induction files with
  | nil =>
    intro acc h
    simp [List.find?] at h
  | cons f rest ih =>
    intro acc h
    cases his : fs f with
    | none =>
      have hp : ((fs f).isNone : Bool) = true := by rw [his]; rfl
      rw [List.find?_cons, hp] at h
      have : f = f0 := Option.some.inj h
      subst this
      show (match ReadEnvFile fs f with
        | Except.error e => Except.error ("failed to read env file: " ++ e)
        | Except.ok m => loadLoop fs rest (mergeMaps acc m))
        = Except.error ("failed to read env file: " ++ ("open " ++ f))
      unfold ReadEnvFile
      rw [his]
    | some c =>
      have hp : ((fs f).isNone : Bool) = false := by rw [his]; rfl
      rw [List.find?_cons, hp] at h
      show (match ReadEnvFile fs f with
        | Except.error e => Except.error ("failed to read env file: " ++ e)
        | Except.ok m => loadLoop fs rest (mergeMaps acc m))
        = Except.error ("failed to read env file: " ++ ("open " ++ f0))
      unfold ReadEnvFile
      rw [his]
      exact ih _ h

/-! ### splitOnChar lemmas -/

theorem splitOnChar_ne_nil (sep : Char) (l : List Char) :
    splitOnChar sep l ≠ [] := by
  cases l with
  | nil => simp [splitOnChar]
  | cons c cs =>
    show (match splitOnChar sep cs with
      | [] => [[]]
      | h :: t => if c == sep then [] :: h :: t else (c :: h) :: t) ≠ []
    cases splitOnChar sep cs with
    | nil => simp
    | cons h t =>
      cases hc : (c == sep) with
      | true => simp [hc]
      | false => simp [hc]

theorem splitOnChar_append {sep : Char} {a b : List Char} (ha : sep ∉ a) :
    splitOnChar sep (a ++ sep :: b) = a :: splitOnChar sep b := by
  induction a with
  | nil =>
    show (match splitOnChar sep b with
      | [] => [[]]
      | h :: t => if sep == sep then [] :: h :: t else (sep :: h) :: t)
      = [] :: splitOnChar sep b
    cases hrec : splitOnChar sep b with
    | nil => exact absurd hrec (splitOnChar_ne_nil sep b)
    | cons h t => simp
  | cons x a' ih =>
    have hx : x ≠ sep := fun e => ha (e ▸ List.mem_cons_self _ _)
    have ha' : sep ∉ a' := fun m => ha (List.mem_cons_of_mem _ m)
    show (match splitOnChar sep (a' ++ sep :: b) with
      | [] => [[]]
      | h :: t => if x == sep then [] :: h :: t else (x :: h) :: t)
      = (x :: a') :: splitOnChar sep b
    rw [ih ha']
    simp [hx]

end Feng

namespace Feng

theorem scanFold_cons (l : List Char) (ls : List (List Char)) (m : EnvMap) :
    scanFold (l :: ls) m
      = if l.length > 65535 then m
        else scanFold ls (processLine m (dropCR l)) := rfl

theorem scanFold_nil (m : EnvMap) : scanFold [] m = m := rfl

/-- A 64 KiB line of `'a'`s followed by a well-formed assignment line. -/
def bigLine : List Char := List.replicate 65536 'a'

/-- File system with one file whose first line overflows `bufio.Scanner`'s
buffer and whose second line is a perfectly good assignment. -/
def fsBig : FS := fun n =>
  if n = "big.env" then some (bigLine ++ '\n' :: String.data "KEY=VALUE")
  else none

/-- Claim C1: for every file that can be opened, `ReadEnvFile` returns a
mapping containing an entry for every grammar-accepted line of the whole
file, or an explicit error — no line-length limit, no silent loss after a
read failure.  The code violates this: on a file whose first line is
65536 characters long, `bufio.Scanner` stops with `ErrTooLong`, which is
never checked, so the accepted line `KEY=VALUE` after it is silently
dropped and `ReadEnvFile` returns the empty mapping with no error. -/
theorem claim_c1_overlong_line_silently_dropped :
    ReadEnvFile fsBig "big.env" = Except.ok [] ∧
    processLine [] (String.data "KEY=VALUE")
      = [(String.data "KEY", String.data "VALUE")] ∧
    lineRegxMatch (String.data "KEY=VALUE")
      = some (String.data "KEY", String.data "VALUE") := by
  refine ⟨?_, by decide, by decide⟩
  have hnl : '\n' ∉ bigLine := by
    intro h
    have h2 : '\n' ∈ List.replicate 65536 'a' := by
      unfold bigLine at h
      exact h
    rcases List.mem_replicate.mp h2 with ⟨-, h3⟩
    exact absurd h3 (by decide)
  have hlen : bigLine.length > 65535 := by
    unfold bigLine
    rw [List.length_replicate]
    omega
  unfold ReadEnvFile fsBig
  rw [if_pos rfl]
  show Except.ok
      (scanFold (goLines (bigLine ++ '\n' :: String.data "KEY=VALUE")) [])
    = Except.ok ([] : EnvMap)
  rw [goLines_append hnl, scanFold_cons, if_pos hlen]

/-- Claim C2: if any listed file cannot be read, `Load` returns that
file's wrapped I/O error, leaves the environment table untouched, and
issues no set operation at all: the merge happens before any mutation. -/
theorem claim_c2_load_error_no_mutation (fs : FS) (files : List String)
    (env : EnvMap) (f0 : String)
    (h : files.find? (fun f => (fs f).isNone) = some f0) :
    Load fs files env
      = (Except.error ("failed to read env file: " ++ ("open " ++ f0)),
          env, []) := by
  unfold Load
  rw [loadLoop_error fs f0 files [] h]

def fsC2 : FS := fun n =>
  if n = "good.env" then some (String.data "A=1") else none

/-- Witness for claim C2 at a concrete file list whose second file is
unreadable. -/
theorem claim_c2_load_error_no_mutation_witness :
    (["good.env", "missing.env"].find? (fun f => (fsC2 f).isNone)
      = some "missing.env") ∧
    Load fsC2 ["good.env", "missing.env"] []
      = (Except.error ("failed to read env file: " ++ ("open " ++ "missing.env")),
          [], []) :=
  ⟨by decide,
    claim_c2_load_error_no_mutation fsC2 ["good.env", "missing.env"] []
      "missing.env" (by decide)⟩

/-- Counterexample to claim C3 as stated: the bare token `KEY` (no
separator at all) is NOT accepted by the recognizer — the loader records
nothing for it, rather than the claimed `KEY ↦ ""`. -/
theorem claim_c3_counterexample :
    lineRegxMatch (String.data "KEY") = none ∧
    processLine [] (String.data "KEY") = [] ∧
    ([] : EnvMap) ≠ [(String.data "KEY", String.data "")] := by
  refine ⟨by decide, by decide, by decide⟩

/-- Claim C3 (amended): a trimmed line `KEY=` (separator present, empty
value) is accepted and recorded with value `""`; a bare token `KEY`
with no separator does not match the pattern and the line is skipped
(no entry is recorded). -/
theorem claim_c3_amended (m : EnvMap) (k : List Char) (hk : k ≠ [])
    (hw : ∀ c ∈ k, isWordChar c = true) :
    processLine m (k ++ ['=']) = mapInsert m k [] ∧ processLine m k = m :=
  ⟨processLine_keyEq hk hw, processLine_bareKey hk hw⟩

/-- Witness for claim C3 (amended) at the key `KEY`. -/
theorem claim_c3_amended_witness :
    (String.data "KEY" ≠ [] ∧ ∀ c ∈ String.data "KEY", isWordChar c = true) ∧
    (processLine [] (String.data "KEY" ++ ['='])
        = mapInsert [] (String.data "KEY") [] ∧
      processLine [] (String.data "KEY") = []) :=
  ⟨⟨by decide, by decide⟩,
    claim_c3_amended [] (String.data "KEY") (by decide) (by decide)⟩

/-- Counterexample to claim C4 as stated: on `KEY='a'b'` the recognized
value does not end at the first unescaped `'` after the opening quote
(which would give value `a`); the characters after that quote are kept
and the loaded value is `a'b`. -/
theorem claim_c4_counterexample :
    processLine [] (String.data "KEY='a'b'")
      = [(String.data "KEY", String.data "a'b")] ∧
    String.data "a'b" ≠ String.data "a" := by
  refine ⟨by decide, by decide⟩

/-- Claim C4 (amended): for a line whose single-quoted value closes at
the end of the line, the value extends to the LAST quote character, not
the first unescaped one: in RE2 the `\'` inside `'(?:\'|[^'])*'` is a
literal quote, so the quoted alternative matches any run of characters
(quotes included) up to the last closing quote, and `KEY='inner'` loads
`inner` verbatim even when `inner` itself contains unescaped quotes. -/
theorem claim_c4_amended (m : EnvMap) (k inner : List Char) (hk : k ≠ [])
    (hw : ∀ c ∈ k, isWordChar c = true) :
    processLine m (k ++ '=' :: '\'' :: (inner ++ ['\'']))
      = mapInsert m k inner :=
  processLine_quoted (Or.inr rfl) hk hw

/-- Witness for claim C4 (amended) with an inner text that itself
contains an unescaped quote. -/
theorem claim_c4_amended_witness :
    (String.data "KEY" ≠ [] ∧ ∀ c ∈ String.data "KEY", isWordChar c = true) ∧
    processLine [] (String.data "KEY" ++ '=' :: '\'' :: (String.data "a'b" ++ ['\'']))
      = mapInsert [] (String.data "KEY") (String.data "a'b") :=
  ⟨⟨by decide, by decide⟩,
    claim_c4_amended [] (String.data "KEY") (String.data "a'b")
      (by decide) (by decide)⟩

/-- Claim C5: a `#` inside a quoted value is kept literally and does not
start a comment: for any key and any inner text (which may contain `#`),
the line `k=<q>inner<q>` (with `q` either quote character) loads the
value `inner`. -/
theorem claim_c5_quoted_hash (m : EnvMap) (k : List Char) (q : Char)
    (inner : List Char) (hq : q = '"' ∨ q = '\'') (hk : k ≠ [])
    (hw : ∀ c ∈ k, isWordChar c = true) :
    processLine m (k ++ '=' :: q :: (inner ++ [q])) = mapInsert m k inner :=
  processLine_quoted hq hk hw

/-- Witness for claim C5 at the spec's own example
`KEY="a # not a comment"`. -/
theorem claim_c5_quoted_hash_witness :
    (String.data "KEY" ≠ [] ∧ ∀ c ∈ String.data "KEY", isWordChar c = true) ∧
    processLine []
        (String.data "KEY" ++ '=' :: '"' :: (String.data "a # not a comment" ++ ['"']))
      = mapInsert [] (String.data "KEY") (String.data "a # not a comment") :=
  ⟨⟨by decide, by decide⟩,
    claim_c5_quoted_hash [] (String.data "KEY") '"'
      (String.data "a # not a comment") (Or.inl rfl) (by decide) (by decide)⟩

end Feng

namespace Feng

/-- Claim C6: for a line with an unquoted value, the recognized value is
the run of characters between the separator and the first `#`, with
surrounding whitespace trimmed; in particular `KEY=value # trailing`
loads `value`.  (`hv_nl`/`hc_nl` restrict to scanner lines, which never
contain a newline; `hq1`/`hq2` say the value does not start with a quote,
i.e. the unquoted alternative applies.) -/
theorem claim_c6_unquoted_comment (m : EnvMap) (k v cmt : List Char)
    (hk : k ≠ []) (hw : ∀ c ∈ k, isWordChar c = true)
    (hv_hash : '#' ∉ v) (hv_nl : '\n' ∉ v)
    (hq1 : ∀ c, (v.dropWhile fun c => isGoSpace c).head? = some c →
      (c ≠ '"' ∧ c ≠ '\''))
    (hq2 : ∀ c, (trimSpace v).head? = some c → (c ≠ '"' ∧ c ≠ '\''))
    (hc_nl : '\n' ∉ cmt) :
    processLine m (k ++ '=' :: (v ++ '#' :: cmt))
      = mapInsert m k (trimSpace v) :=
  processLine_unquoted hk hw hv_hash hv_nl hq1 hq2 hc_nl

/-- Witness for claim C6 at `KEY=value # trailing`: the value between the
separator and the `#` is `"value "`, and the loaded value is its trim
`value`. -/
theorem claim_c6_unquoted_comment_witness :
    (String.data "KEY" ≠ [] ∧
      (∀ c ∈ String.data "KEY", isWordChar c = true) ∧
      '#' ∉ String.data "value " ∧ '\n' ∉ String.data "value " ∧
      '\n' ∉ String.data " trailing") ∧
    processLine []
        (String.data "KEY" ++ '=' :: (String.data "value " ++ '#' :: String.data " trailing"))
      = mapInsert [] (String.data "KEY") (trimSpace (String.data "value ")) ∧
    trimSpace (String.data "value ") = String.data "value" :=
  ⟨⟨by decide, by decide, by decide, by decide, by decide⟩,
    claim_c6_unquoted_comment [] (String.data "KEY") (String.data "value ")
      (String.data " trailing") (by decide) (by decide) (by decide) (by decide)
      (fun c hc => by
        have h2 : some 'v' = some c := hc
        rw [← Option.some.inj h2]
        exact ⟨by decide, by decide⟩)
      (fun c hc => by
        have h2 : some 'v' = some c := hc
        rw [← Option.some.inj h2]
        exact ⟨by decide, by decide⟩)
      (by decide),
    by decide⟩

/-- Claim C7: within one `ReadEnvFile` call, when the same key is
assigned on two lines of the file, the returned mapping holds the value
of the later line — the later insertion overwrites the earlier one. -/
theorem claim_c7_last_wins (k v1 v2 : List Char) (hk : k ≠ [])
    (hw : ∀ c ∈ k, isWordChar c = true)
    (hv1 : ∀ c ∈ v1, isWordChar c = true)
    (hv2 : ∀ c ∈ v2, isWordChar c = true)
    (hl1 : (k ++ '=' :: v1).length ≤ 65535)
    (hl2 : (k ++ '=' :: v2).length ≤ 65535) :
    mapLookup
        (readEnvFileContent ((k ++ '=' :: v1) ++ '\n' :: (k ++ '=' :: v2))) k
      = some v2 := by
  have hnl1 : '\n' ∉ k ++ '=' :: v1 := nl_not_mem_keyline hw hv1
  have hnl2 : '\n' ∉ k ++ '=' :: v2 := nl_not_mem_keyline hw hv2
  have hne2 : k ++ '=' :: v2 ≠ [] := by
    obtain ⟨a, k', rfl⟩ : ∃ a k', k = a :: k' := by
      cases k with
      | nil => exact absurd rfl hk
      | cons a k' => exact ⟨a, k', rfl⟩
    simp
  unfold readEnvFileContent
  rw [goLines_append hnl1, goLines_single hne2 hnl2,
    scanFold_cons, if_neg (by omega), dropCR_keyline hw hv1,
    processLine_wordVal hk hw hv1,
    scanFold_cons, if_neg (by omega), dropCR_keyline hw hv2,
    processLine_wordVal hk hw hv2, scanFold_nil]
  exact mapLookup_mapInsert _ k v2

/-- Witness for claim C7: a two-line file `K=1` then `K=2` retains `2`. -/
theorem claim_c7_last_wins_witness :
    (String.data "K" ≠ [] ∧
      (∀ c ∈ String.data "K", isWordChar c = true) ∧
      (∀ c ∈ String.data "1", isWordChar c = true) ∧
      (∀ c ∈ String.data "2", isWordChar c = true) ∧
      (String.data "K" ++ '=' :: String.data "1").length ≤ 65535 ∧
      (String.data "K" ++ '=' :: String.data "2").length ≤ 65535) ∧
    mapLookup
        (readEnvFileContent
          ((String.data "K" ++ '=' :: String.data "1")
            ++ '\n' :: (String.data "K" ++ '=' :: String.data "2")))
        (String.data "K")
      = some (String.data "2") :=
  ⟨⟨by decide, by decide, by decide, by decide, by decide, by decide⟩,
    claim_c7_last_wins (String.data "K") (String.data "1") (String.data "2")
      (by decide) (by decide) (by decide) (by decide) (by decide) (by decide)⟩

/-- Claim C8: `removeQuotes` strips exactly one matching outer pair of
double or single quotes from a string of length at least 2 and returns
every other string (shorter than 2, or without a matching outer quote
pair) unchanged. -/
theorem claim_c8_removeQuotes :
    (∀ (q : Char) (inner : List Char), (q = '"' ∨ q = '\'') →
      removeQuotes (q :: (inner ++ [q])) = inner) ∧
    (∀ s : List Char, s.length < 2 → removeQuotes s = s) ∧
    (∀ s : List Char, 2 ≤ s.length →
      (∀ q : Char, (q = '"' ∨ q = '\'') →
        ¬(s.head? = some q ∧ s.getLast? = some q)) →
      removeQuotes s = s) := by
  refine ⟨fun q inner hq => removeQuotes_quoted hq inner, fun s hs => ?_,
    fun s hs h => ?_⟩
  · unfold removeQuotes
    rw [if_pos hs]
  · unfold removeQuotes
    rw [if_neg (by omega)]
    cases s with
    | nil => simp at hs
    | cons c t =>
      cases hg : (c :: t).getLast? with
      | none => simp at hg
      | some d =>
        show (if ((c == '"' && d == '"') || (c == '\'' && d == '\'')) = true
          then ((c :: t).drop 1).dropLast else c :: t) = c :: t
        rw [if_neg]
        simp only [Bool.or_eq_true, Bool.and_eq_true, beq_iff_eq]
        rintro (⟨rfl, rfl⟩ | ⟨rfl, rfl⟩)
        · exact h '"' (Or.inl rfl) ⟨rfl, hg⟩
        · exact h '\'' (Or.inr rfl) ⟨rfl, hg⟩

/-- Witness for claim C8 at the spec's examples `'x'`, `x` and `'x`. -/
theorem claim_c8_removeQuotes_witness :
    removeQuotes (String.data "'x'") = String.data "x" ∧
    removeQuotes (String.data "x") = String.data "x" ∧
    removeQuotes (String.data "'x") = String.data "'x" := by
  refine ⟨?_, ?_, ?_⟩
  · have h := claim_c8_removeQuotes.1 '\'' (String.data "x") (Or.inr rfl)
    rw [show String.data "'x'" = '\'' :: (String.data "x" ++ ['\''])
      by decide]
    exact h
  · exact claim_c8_removeQuotes.2.1 (String.data "x") (by decide)
  · exact claim_c8_removeQuotes.2.2 (String.data "'x") (by decide)
      (fun q hq => by rcases hq with rfl | rfl <;> decide)

/-- File system with a single readable one-line file. -/
def fsOne : FS := fun n =>
  if n = "a.env" then some (String.data "K=V") else none

/-- Claim C9: on every exit path of `ReadEnvFile`, the handle opened for
the scan is released before the function returns.  The code violates
this: the source contains no `Close` call at all (unlike `WriteEnvFile`,
which defers one), so on the successful path the handle is acquired and
never released. -/
theorem claim_c9_handle_never_released :
    readEnvFileEvents fsOne "a.env" = [FileEvent.acquire "a.env"] ∧
    handleBalanced (readEnvFileEvents fsOne "a.env") = false := by
  refine ⟨by decide, by decide⟩

/-- Claim C10: a `GetenvMap` entry whose value itself contains `=` is
split on every `=` and only the second field is kept: the entry
`k=v1=rest` maps `k` to `v1`, silently dropping `=rest`. -/
theorem claim_c10_getenv_split (k v1 rest : List Char)
    (hk : '=' ∉ k) (hv : '=' ∉ v1) :
    GetenvMap [k ++ '=' :: (v1 ++ '=' :: rest)] [] = [(k, v1)] := by
  unfold GetenvMap
  simp only [List.foldl_cons, List.foldl_nil]
  unfold parseEnvEntry
  rw [splitOnChar_append hk, splitOnChar_append hv]
  show (if ([] : List Char).isPrefixOf k || (([] : List Char) == []) then
      mapInsert [] k v1 else []) = [(k, v1)]
  rw [if_pos (by simp)]
  unfold mapInsert
  rw [if_neg (by simp)]
  rfl

/-- Witness for claim C10 at the entry `K=v1=v2`. -/
theorem claim_c10_getenv_split_witness :
    ('=' ∉ String.data "K" ∧ '=' ∉ String.data "v1") ∧
    GetenvMap [String.data "K" ++ '=' :: (String.data "v1" ++ '=' :: String.data "v2")] []
      = [(String.data "K", String.data "v1")] :=
  ⟨⟨by decide, by decide⟩,
    claim_c10_getenv_split (String.data "K") (String.data "v1")
      (String.data "v2") (by decide) (by decide)⟩

end Feng
